import Mathlib

/-!
Verification development for the `spark` staking/delegation indexer.

This file gives a shallow embedding, in Lean 4, of the data model and the
core operations of the repository:

* the `Delta` / `DelegateDelta` / `DelegateDeltas` wire codecs and the
  `Delta::sub` operation (`common/src/types/delta.rs`);
* the stake-aggregation candidate fold and the top-K eviction of the
  stake SMT transaction builder (`tx-builder/src/ckb/stake_smt.rs`);
* the sync dispatcher's epoch-rollover and stake-tx handlers together
  with the key-value status store (`sync/src/lib.rs`, `storage/src/kvdb.rs`);
* the paginated history queries of the relational store
  (`storage/src/relation_db/mod.rs`).

Machine integers are modelled as `Nat` with explicit `% 2^w` exactly where
the Rust code can overflow or truncate (`u128` addition, `len as u32`,
`as u64` casts).  Byte strings are `List Nat`.  Fallible Rust code returns
`Except`; a Rust panic (out-of-bounds slice indexing, `unwrap` on `None`)
is modelled as the explicit outcome `Failure.panic` so that totality
properties of decoders can be stated faithfully.
-/

namespace Spark

/-! ## Byte-level helpers

Little-endian encodings of fixed width, as produced by Rust's
`uN::to_le_bytes` / consumed by `uN::from_le_bytes`.  `toLEBytes w n`
produces exactly `w` bytes and inherently truncates `n` modulo `256^w`,
which is the behaviour of a cast such as `len as u32` followed by
`to_le_bytes`. -/

def toLEBytes : Nat → Nat → List Nat
  | 0, _ => []
  | w + 1, n => (n % 256) :: toLEBytes w (n / 256)

def fromLEBytes : List Nat → Nat
  | [] => 0
  | b :: bs => b + 256 * fromLEBytes bs

theorem toLEBytes_length (w n : Nat) : (toLEBytes w n).length = w := by
  induction w generalizing n with
  | zero => rfl
  | succ w ih => simp [toLEBytes, ih]

theorem fromLEBytes_toLEBytes (w n : Nat) (h : n < 256 ^ w) :
    fromLEBytes (toLEBytes w n) = n := by
  induction w generalizing n with
  | zero => simp [toLEBytes, fromLEBytes]; omega
  | succ w ih =>
    simp only [toLEBytes, fromLEBytes]
    rw [ih (n / 256) (by
      rw [Nat.div_lt_iff_lt_mul (by norm_num)]
      calc n < 256 ^ (w + 1) := h
        _ = 256 ^ w * 256 := by ring)]
    omega

/-- Big-endian fixed-width encoding; used only to build concrete ordered
keys in counterexamples. -/
def toBEBytes : Nat → Nat → List Nat
  | 0, _ => []
  | w + 1, n => n / 256 ^ w :: toBEBytes w (n % 256 ^ w)

theorem toBEBytes_length (w n : Nat) : (toBEBytes w n).length = w := by
  induction w generalizing n with
  | zero => rfl
  | succ w ih => simp [toBEBytes, ih]

theorem take_append_eq_of_length {α : Type} {l1 l2 : List α} {n : Nat}
    (h : l1.length = n) : (l1 ++ l2).take n = l1 := by
  subst h
  exact List.take_left l1 l2

theorem drop_append_eq_of_length {α : Type} {l1 l2 : List α} {n : Nat}
    (h : l1.length = n) : (l1 ++ l2).drop n = l2 := by
  subst h
  exact List.drop_left l1 l2

/-- Lexicographic strict comparison on byte strings: the ordering of
`H160` keys used by `BTreeMap<H160, _>` (derived `Ord` on byte arrays). -/
def bytesLt : List Nat → List Nat → Bool
  | [], [] => false
  | [], _ :: _ => true
  | _ :: _, [] => false
  | a :: as, b :: bs => if a < b then true else if b < a then false else bytesLt as bs

theorem bytesLt_asymm : ∀ {x y : List Nat}, bytesLt x y = true → bytesLt y x = false := by
  intro x
  induction x with
  | nil => intro y h; cases y <;> simp_all [bytesLt]
  | cons a as ih =>
    intro y h
    cases y with
    | nil => simp [bytesLt] at h
    | cons b bs =>
      simp only [bytesLt] at h ⊢
      rcases Nat.lt_trichotomy a b with hab | hab | hab
      · simp [hab, Nat.lt_asymm hab]
      · subst hab
        simp only [Nat.lt_irrefl, if_false] at h ⊢
        exact ih h
      · simp [hab, Nat.lt_asymm hab] at h

theorem bytesLt_irrefl : ∀ x : List Nat, bytesLt x x = false
  | [] => rfl
  | a :: as => by simp [bytesLt, Nat.lt_irrefl, bytesLt_irrefl as]

theorem bytesLt_ne {x y : List Nat} (h : bytesLt x y = true) : x ≠ y := by
  intro he
  subst he
  rw [bytesLt_irrefl] at h
  exact Bool.false_ne_true h

/-- A 20-byte address (`ckb_types::H160`), modelled as its byte string. -/
abbrev H160 := List Nat

/-- Decode / panic outcome of a fallible Rust function: `err` is a returned
`Err(_)`, `panic` is an actual Rust panic (out-of-bounds indexing or
`unwrap` on `None`). -/
inductive Failure where
  | err : Failure
  | panic : Failure
deriving DecidableEq, Repr

/-! ## `Delta` (`common/src/types/delta.rs`)

`Delta { is_increase: bool, amount: u128 }` with the 17-byte wire codec
and the `sub` operation, translated branch by branch. -/

def u128Mod : Nat := 2 ^ 128

structure Delta where
  is_increase : Bool
  amount : Nat
deriving DecidableEq, Repr

namespace Delta

/-- The signed-integer view of a delta: `+amount` if increase, `-amount`
otherwise. -/
def signed (d : Delta) : Int :=
  if d.is_increase then (d.amount : Int) else -(d.amount : Int)

/-- `Delta::encode`: one direction byte (0 = increase, 1 = decrease)
followed by the 16 little-endian bytes of the `u128` amount. -/
def encode (d : Delta) : List Nat :=
  (if d.is_increase then 0 else 1) :: toLEBytes 16 d.amount

/-- `Delta::decode`: length must be exactly 17, direction from byte 0,
amount from bytes 1..17 as little-endian `u128`. -/
def decode (raw : List Nat) : Except Failure Delta :=
  if raw.length ≠ 17 then .error .err
  else .ok { is_increase := raw.headD 0 == 0, amount := fromLEBytes ((raw.drop 1).take 16) }

/-- `Delta::sub`, translated branch by branch from the source.  The
same-direction branch adds the `u128` amounts (with wrap-around modelled
by `% 2^128`); the mixed-direction branches compare and subtract. -/
def sub (a b : Delta) : Delta :=
  if a.is_increase == b.is_increase then
    { is_increase := a.is_increase, amount := (a.amount + b.amount) % u128Mod }
  else if a.is_increase && decide (a.amount > b.amount) then
    { is_increase := true, amount := a.amount - b.amount }
  else if a.is_increase && decide (a.amount < b.amount) then
    { is_increase := false, amount := b.amount - a.amount }
  else if !a.is_increase && decide (a.amount > b.amount) then
    { is_increase := false, amount := a.amount - b.amount }
  else
    { is_increase := true, amount := b.amount - a.amount }

theorem encode_length (d : Delta) : (encode d).length = 17 := by
  simp [encode, toLEBytes_length]

theorem decode_encode (d : Delta) (h : d.amount < u128Mod) :
    decode (encode d) = .ok d := by
  obtain ⟨di, da⟩ := d
  simp only at h
  simp only [decode, encode_length]
  simp only [encode, List.drop_succ_cons, List.drop_zero, ne_eq]
  rw [List.take_of_length_le (by simp [toLEBytes_length])]
  rw [fromLEBytes_toLEBytes 16 da (by simpa [u128Mod] using h)]
  cases di <;> simp

end Delta

/-- **C7** — `Delta` codec round-trip: for every `Delta` value `d` (with a
`u128` amount, i.e. `d.amount < 2^128`), `decode (encode d) = Ok d`, the
encoding is exactly 17 bytes (direction byte 0/1 followed by the 16-byte
little-endian amount), and `decode` rejects every input whose length is
not 17. -/
theorem delta_codec_roundtrip_c7 (d : Delta) (h : d.amount < u128Mod) :
    Delta.decode (Delta.encode d) = .ok d ∧
    (Delta.encode d).length = 17 ∧
    (Delta.encode d).headD 0 = (if d.is_increase then 0 else 1) ∧
    (∀ raw : List Nat, raw.length ≠ 17 → Delta.decode raw = .error .err) := by
  refine ⟨Delta.decode_encode d h, Delta.encode_length d, ?_, ?_⟩
  · obtain ⟨di, da⟩ := d
    cases di <;> simp [Delta.encode]
  · intro raw hraw
    simp [Delta.decode, hraw]

/-- Witness for C7 at a concrete delta. -/
theorem delta_codec_roundtrip_c7_witness :
    (Delta.mk true 500).amount < u128Mod ∧
      Delta.decode (Delta.encode (Delta.mk true 500)) = .ok (Delta.mk true 500) :=
  ⟨by norm_num [u128Mod],
   (delta_codec_roundtrip_c7 (Delta.mk true 500) (by norm_num [u128Mod])).1⟩

/-- **C2 (counterexample)** — the claim `signed (a.sub b) = signed a - signed b`
fails on the code: for `a = {increase, 5}` and `b = {increase, 3}` the
same-direction branch of `Delta::sub` *adds* the amounts, giving
`{increase, 8}` whose signed value is `8`, while `signed a - signed b = 2`. -/
theorem delta_sub_not_signed_subtraction_c2 :
    Delta.signed (Delta.sub (Delta.mk true 5) (Delta.mk true 3)) ≠
      Delta.signed (Delta.mk true 5) - Delta.signed (Delta.mk true 3) := by
  decide

/-- **C2 (amended)** — `Delta::sub` is signed *addition*: for all deltas
`a`, `b` whose amounts do not overflow a `u128` when added,
`signed (a.sub b) = signed a + signed b`. -/
theorem delta_sub_signed_addition_c2 (a b : Delta)
    (h : a.amount + b.amount < u128Mod) :
    Delta.signed (Delta.sub a b) = Delta.signed a + Delta.signed b := by
  rcases a with ⟨ai, aa⟩
  rcases b with ⟨bi, ba⟩
  simp only at h
  have hm : (aa + ba) % u128Mod = aa + ba := Nat.mod_eq_of_lt h
  cases ai <;> cases bi <;>
    simp only [Delta.sub, Delta.signed, hm] <;>
    split_ifs <;> (try simp_all) <;> omega

/-- Witness for the amended C2 at concrete deltas. -/
theorem delta_sub_signed_addition_c2_witness :
    (5 + 3 < u128Mod) ∧
      Delta.signed (Delta.sub (Delta.mk true 5) (Delta.mk false 3)) =
        Delta.signed (Delta.mk true 5) + Delta.signed (Delta.mk false 3) :=
  ⟨by norm_num [u128Mod],
   delta_sub_signed_addition_c2 (Delta.mk true 5) (Delta.mk false 3)
     (by norm_num [u128Mod])⟩

/-! ## `DelegateDelta` and `DelegateDeltas` (`common/src/types/delta.rs`)

`DelegateDelta { staker: H160, delta: Delta }` has a 37-byte codec
(20 staker bytes then the 17-byte delta).  `DelegateDeltas` wraps a
`BTreeMap<H160, DelegateDelta>`, modelled as a key-sorted association
list; its codec is a 4-byte little-endian count (the map size cast with
`as u32`) followed by the entries in ascending key order.  The decoder
indexes the raw bytes at `4 + i·37` without bounds checks, so a short
input makes it panic (`Failure.panic`). -/

structure DelegateDelta where
  staker : H160
  delta : Delta
deriving DecidableEq, Repr

namespace DelegateDelta

def encode (d : DelegateDelta) : List Nat :=
  d.staker ++ Delta.encode d.delta

/-- `DelegateDelta::decode`: `H160::from_slice(&raw[0..20])?` (the slice
panics when the input is shorter than 20), then
`Delta::decode(&raw[20..37])?` (panics when shorter than 37). -/
def decode (raw : List Nat) : Except Failure DelegateDelta :=
  if raw.length < 20 then .error .panic
  else if raw.length < 37 then .error .panic
  else
    match Delta.decode ((raw.drop 20).take 17) with
    | .error e => .error e
    | .ok delta => .ok { staker := raw.take 20, delta := delta }

end DelegateDelta

namespace DelegateDeltas

/-- Well-formedness of a `BTreeMap<H160, DelegateDelta>` entry as the Rust
types guarantee it: the entry's `staker` field is its key, the key is a
20-byte address and the amount fits a `u128`. -/
def EntryWf (p : H160 × DelegateDelta) : Prop :=
  p.2.staker = p.1 ∧ p.1.length = 20 ∧ p.2.delta.amount < u128Mod

instance (p : H160 × DelegateDelta) : Decidable (EntryWf p) := by
  unfold EntryWf; infer_instance

/-- `BTreeMap::insert` on a key-sorted association list: place the new
binding at its key position, replacing an equal key. -/
def btInsert : List (H160 × DelegateDelta) → H160 → DelegateDelta →
    List (H160 × DelegateDelta)
  | [], k, v => [(k, v)]
  | (k1, v1) :: rest, k, v =>
    if bytesLt k k1 then (k, v) :: (k1, v1) :: rest
    else if k = k1 then (k, v) :: rest
    else (k1, v1) :: btInsert rest k v

/-- `DelegateDeltas::encode`: 4-byte little-endian `inner.len() as u32`
(truncating modulo `2^32`), then each entry's 37-byte encoding in
ascending key order. -/
def encode (m : List (H160 × DelegateDelta)) : List Nat :=
  toLEBytes 4 m.length ++ (m.map fun p => DelegateDelta.encode p.2).flatten

/-- The entry-decoding loop of `DelegateDeltas::decode`: `k` entries remain,
the next one is read at `offset` (the Rust loop reads entry `i` at
`4 + i·37`); `&raw[offset..offset+37]` panics when out of bounds. -/
def decodeEntries (raw : List Nat) :
    Nat → Nat → List (H160 × DelegateDelta) →
    Except Failure (List (H160 × DelegateDelta))
  | 0, _, acc => .ok acc
  | k + 1, offset, acc =>
    if raw.length < offset + 37 then .error .panic
    else
      match DelegateDelta.decode ((raw.drop offset).take 37) with
      | .error e => .error e
      | .ok d => decodeEntries raw k (offset + 37) (btInsert acc d.staker d)

/-- `DelegateDeltas::decode`: read the 4-byte little-endian count
(`&raw[0..4]` panics when the input is shorter than 4 bytes), then decode
that many 37-byte entries, inserting each under its `staker` key. -/
def decode (raw : List Nat) : Except Failure (List (H160 × DelegateDelta)) :=
  if raw.length < 4 then .error .panic
  else decodeEntries raw (fromLEBytes (raw.take 4)) 4 []

theorem encode_entry_length {p : H160 × DelegateDelta} (h : EntryWf p) :
    (DelegateDelta.encode p.2).length = 37 := by
  obtain ⟨hs, hl, _⟩ := h
  simp [DelegateDelta.encode, Delta.encode_length, hs, hl]

theorem encode_map_length (m : List (H160 × DelegateDelta))
    (hwf : ∀ p ∈ m, EntryWf p) :
    (encode m).length = 4 + 37 * m.length := by
  have hjoin : ((m.map fun p => DelegateDelta.encode p.2).flatten).length
      = 37 * m.length := by
    induction m with
    | nil => simp
    | cons p rest ih =>
      have hp := encode_entry_length (hwf p (by simp))
      simp only [List.map_cons, List.flatten_cons, List.length_append,
        List.length_cons, hp]
      rw [ih (fun q hq => hwf q (by simp [hq]))]
      ring
  simp [encode, toLEBytes_length, hjoin]

theorem decode_encode_entry {k : H160} {d : DelegateDelta}
    (h : EntryWf (k, d)) :
    DelegateDelta.decode (DelegateDelta.encode d) = .ok d := by
  obtain ⟨hs, hl, ha⟩ := h
  simp only at hs hl ha
  have hlen : (DelegateDelta.encode d).length = 37 :=
    encode_entry_length (p := (k, d)) ⟨hs, hl, ha⟩
  have hsl : d.staker.length = 20 := by rw [hs]; exact hl
  simp only [DelegateDelta.decode, hlen]
  rw [if_neg (by omega), if_neg (by omega)]
  have hdrop : (DelegateDelta.encode d).drop 20 = Delta.encode d.delta := by
    simp only [DelegateDelta.encode]
    rw [← hsl, List.drop_left]
  have htake : (DelegateDelta.encode d).take 20 = d.staker := by
    simp only [DelegateDelta.encode]
    rw [← hsl, List.take_left]
  rw [hdrop, List.take_of_length_le (by simp [Delta.encode_length]),
    Delta.decode_encode d.delta ha, htake]

theorem btInsert_append {acc : List (H160 × DelegateDelta)} {k : H160}
    {v : DelegateDelta} (h : ∀ p ∈ acc, bytesLt p.1 k = true) :
    btInsert acc k v = acc ++ [(k, v)] := by
  induction acc with
  | nil => rfl
  | cons q rest ih =>
    obtain ⟨k1, v1⟩ := q
    have hq := h (k1, v1) (by simp)
    simp only at hq
    simp only [btInsert, bytesLt_asymm hq, Bool.false_eq_true, if_false]
    rw [if_neg (Ne.symm (bytesLt_ne hq))]
    rw [ih (fun p hp => h p (by simp [hp]))]
    simp

theorem decodeEntries_roundtrip (raw : List Nat) :
    ∀ (l acc : List (H160 × DelegateDelta)) (offset : Nat),
    (∀ p ∈ l, EntryWf p) →
    List.Pairwise (fun a b => bytesLt a.1 b.1 = true) l →
    (∀ p ∈ acc, ∀ q ∈ l, bytesLt p.1 q.1 = true) →
    raw.drop offset = (l.map fun p => DelegateDelta.encode p.2).flatten →
    decodeEntries raw l.length offset acc = .ok (acc ++ l) := by
  intro l
  induction l with
  | nil =>
    intro acc offset _ _ _ _
    simp [decodeEntries]
  | cons p rest ih =>
    intro acc offset hwf hsort hacc hdrop
    obtain ⟨k, d⟩ := p
    have hpwf : EntryWf (k, d) := hwf (k, d) (by simp)
    have hplen : (DelegateDelta.encode d).length = 37 :=
      encode_entry_length hpwf
    simp only [List.map_cons, List.flatten_cons] at hdrop
    have hdl : (raw.drop offset).length = raw.length - offset :=
      List.length_drop offset raw
    have hge : offset + 37 ≤ raw.length := by
      rw [hdrop] at hdl
      simp only [List.length_append, hplen] at hdl
      omega
    simp only [List.length_cons, decodeEntries]
    rw [if_neg (show ¬ raw.length < offset + 37 by omega)]
    have hslice : (raw.drop offset).take 37
        = DelegateDelta.encode d := by
      rw [hdrop]
      exact take_append_eq_of_length hplen
    rw [hslice]
    simp only [decode_encode_entry hpwf]
    have hks : d.staker = k := hpwf.1
    rw [hks]
    rw [btInsert_append (fun q hq => hacc q hq (k, d) (by simp))]
    have hdrop' : raw.drop (offset + 37)
        = (rest.map fun p => DelegateDelta.encode p.2).flatten := by
      have hsplit : raw.drop (offset + 37) = (raw.drop offset).drop 37 := by
        rw [List.drop_drop]
      rw [hsplit, hdrop]
      exact drop_append_eq_of_length hplen
    have haccr : ∀ q ∈ acc ++ [(k, d)], ∀ r ∈ rest, bytesLt q.1 r.1 = true := by
      intro q hq r hr
      rcases List.mem_append.mp hq with hq1 | hq2
      · exact hacc q hq1 r (by simp [hr])
      · have hqe : q = (k, d) := by simpa using hq2
        subst hqe
        exact (List.pairwise_cons.mp hsort).1 r hr
    rw [ih (acc ++ [(k, d)]) (offset + 37)
      (fun q hq => hwf q (by simp [hq]))
      (List.Pairwise.of_cons hsort) haccr hdrop']
    simp

end DelegateDeltas

/-- **C8 (amended)** — `DelegateDeltas` codec: for every well-formed map
`m` (a key-sorted `BTreeMap` whose entries satisfy `entry.staker = key`),
the encoded length is exactly `4 + 37·|m|` (4-byte little-endian count
followed by the 37-byte entry encodings, emitted in ascending staker-key
order), and whenever `|m| < 2^32` (so that the `len as u32` count does not
truncate), `decode (encode m) = Ok m`. -/
theorem delegate_deltas_codec_c8 (m : List (H160 × DelegateDelta))
    (hwf : ∀ p ∈ m, DelegateDeltas.EntryWf p)
    (hsort : List.Pairwise (fun a b => bytesLt a.1 b.1 = true) m) :
    (m.length < 2 ^ 32 →
      DelegateDeltas.decode (DelegateDeltas.encode m) = .ok m) ∧
    (DelegateDeltas.encode m).length = 4 + 37 * m.length := by
  constructor
  · intro hcount
    have hlen := DelegateDeltas.encode_map_length m hwf
    have htake : (DelegateDeltas.encode m).take 4 = toLEBytes 4 m.length := by
      simp only [DelegateDeltas.encode]
      exact take_append_eq_of_length (toLEBytes_length 4 m.length)
    have hfrom : fromLEBytes ((DelegateDeltas.encode m).take 4) = m.length := by
      rw [htake, fromLEBytes_toLEBytes 4 m.length (by simpa using hcount)]
    have hdrop : (DelegateDeltas.encode m).drop 4
        = (m.map fun p => DelegateDelta.encode p.2).flatten := by
      simp only [DelegateDeltas.encode]
      exact drop_append_eq_of_length (toLEBytes_length 4 m.length)
    have hnot : ¬ (DelegateDeltas.encode m).length < 4 := by omega
    simp only [DelegateDeltas.decode, if_neg hnot, hfrom]
    have := DelegateDeltas.decodeEntries_roundtrip (DelegateDeltas.encode m)
      m [] 4 hwf hsort (by simp) hdrop
    simpa using this
  · exact DelegateDeltas.encode_map_length m hwf

/-- Witness for the amended C8 at a concrete two-entry map. -/
theorem delegate_deltas_codec_c8_witness :
    ((∀ p ∈ [((List.replicate 19 0 ++ [1] : List Nat),
        DelegateDelta.mk (List.replicate 19 0 ++ [1]) (Delta.mk true 7)),
      ((List.replicate 19 0 ++ [2] : List Nat),
        DelegateDelta.mk (List.replicate 19 0 ++ [2]) (Delta.mk false 9))],
        DelegateDeltas.EntryWf p) ∧
      List.Pairwise (fun a b => bytesLt a.1 b.1 = true)
        [((List.replicate 19 0 ++ [1] : List Nat),
          DelegateDelta.mk (List.replicate 19 0 ++ [1]) (Delta.mk true 7)),
         ((List.replicate 19 0 ++ [2] : List Nat),
          DelegateDelta.mk (List.replicate 19 0 ++ [2]) (Delta.mk false 9))]) ∧
    DelegateDeltas.decode (DelegateDeltas.encode
      [((List.replicate 19 0 ++ [1] : List Nat),
        DelegateDelta.mk (List.replicate 19 0 ++ [1]) (Delta.mk true 7)),
       ((List.replicate 19 0 ++ [2] : List Nat),
        DelegateDelta.mk (List.replicate 19 0 ++ [2]) (Delta.mk false 9))])
      = .ok [((List.replicate 19 0 ++ [1] : List Nat),
        DelegateDelta.mk (List.replicate 19 0 ++ [1]) (Delta.mk true 7)),
       ((List.replicate 19 0 ++ [2] : List Nat),
        DelegateDelta.mk (List.replicate 19 0 ++ [2]) (Delta.mk false 9))] :=
  ⟨⟨by decide, by decide⟩,
   (delegate_deltas_codec_c8 _ (by decide) (by decide)).1 (by decide)⟩

namespace DelegateDeltas

/-- A 37-byte slice always decodes as an entry: `H160::from_slice` gets
exactly 20 bytes and `Delta::decode` exactly 17, so neither errs. -/
theorem decode_entry_isOk_of_length {raw : List Nat} (h : raw.length = 37) :
    ∃ d, DelegateDelta.decode raw = .ok d := by
  simp only [DelegateDelta.decode, h]
  rw [if_neg (by omega), if_neg (by omega)]
  have hlen : ((raw.drop 20).take 17).length = 17 := by
    simp [List.length_take, List.length_drop, h]
  simp only [Delta.decode, hlen]
  rw [if_neg (show ¬ (17 : Nat) ≠ 17 by omega)]
  exact ⟨_, rfl⟩

theorem decodeEntries_panic (raw : List Nat) :
    ∀ (k offset : Nat) (acc : List (H160 × DelegateDelta)),
    1 ≤ k → raw.length < offset + 37 * k →
    decodeEntries raw k offset acc = .error .panic := by
  intro k
  induction k with
  | zero => intro offset acc h; omega
  | succ k ih =>
    intro offset acc _ hlt
    by_cases hshort : raw.length < offset + 37
    · simp [decodeEntries, hshort]
    · have hge : offset + 37 ≤ raw.length := by omega
      have hk : 1 ≤ k := by
        rcases Nat.eq_zero_or_pos k with h0 | h1
        · subst h0; omega
        · exact h1
      have hslen : ((raw.drop offset).take 37).length = 37 := by
        simp [List.length_take, List.length_drop]
        omega
      obtain ⟨d, hd⟩ := decode_entry_isOk_of_length hslen
      simp only [decodeEntries, if_neg hshort, hd]
      exact ih (offset + 37) _ hk (by omega)

end DelegateDeltas

/-- **C10** — `DelegateDeltas::decode` is not total: an input shorter than
4 bytes panics (out-of-bounds slice `&raw[0..4]`); an input whose 4-byte
little-endian count `len` implies a required length `4 + 37·len` greater
than the actual length panics (out-of-bounds slice `&raw[4+i·37..]` for
some entry `i`); and a decode that returns `Ok` implies the input holds at
least `4 + 37·len` bytes. -/
theorem delegate_deltas_decode_partial_c10 (raw : List Nat) :
    (raw.length < 4 → DelegateDeltas.decode raw = .error .panic) ∧
    (4 ≤ raw.length → raw.length < 4 + 37 * fromLEBytes (raw.take 4) →
      DelegateDeltas.decode raw = .error .panic) ∧
    (∀ m, DelegateDeltas.decode raw = .ok m →
      4 + 37 * fromLEBytes (raw.take 4) ≤ raw.length) := by
  refine ⟨?_, ?_, ?_⟩
  · intro h
    simp [DelegateDeltas.decode, h]
  · intro h4 hlt
    have hlen1 : 1 ≤ fromLEBytes (raw.take 4) := by omega
    have hd : DelegateDeltas.decode raw
        = DelegateDeltas.decodeEntries raw (fromLEBytes (raw.take 4)) 4 [] := by
      simp only [DelegateDeltas.decode]
      rw [if_neg (by omega)]
    rw [hd]
    exact DelegateDeltas.decodeEntries_panic raw _ 4 [] hlen1 (by omega)
  · intro m hok
    by_cases h4 : raw.length < 4
    · simp [DelegateDeltas.decode, h4] at hok
    · by_contra hc
      push_neg at hc
      have hlen1 : 1 ≤ fromLEBytes (raw.take 4) := by omega
      have hpanic := DelegateDeltas.decodeEntries_panic raw
        (fromLEBytes (raw.take 4)) 4 [] hlen1 (by omega)
      have hd : DelegateDeltas.decode raw
          = DelegateDeltas.decodeEntries raw (fromLEBytes (raw.take 4)) 4 [] := by
        simp only [DelegateDeltas.decode]
        rw [if_neg h4]
      rw [hd, hpanic] at hok
      cases hok

/-- Witness for C10 at concrete inputs: `[7]` is shorter than 4 bytes and
panics; `[1,0,0,0]` declares one entry but carries none, so it panics; a
well-formed one-entry buffer length obeys the bound. -/
theorem delegate_deltas_decode_partial_c10_witness :
    (([7] : List Nat).length < 4 ∧
      DelegateDeltas.decode [7] = .error .panic) ∧
    (4 ≤ ([1, 0, 0, 0] : List Nat).length ∧
      ([1, 0, 0, 0] : List Nat).length
        < 4 + 37 * fromLEBytes (([1, 0, 0, 0] : List Nat).take 4) ∧
      DelegateDeltas.decode [1, 0, 0, 0] = .error .panic) :=
  ⟨⟨by decide, (delegate_deltas_decode_partial_c10 [7]).1 (by decide)⟩,
   ⟨by decide, by decide,
    (delegate_deltas_decode_partial_c10 [1, 0, 0, 0]).2.1 (by decide) (by decide)⟩⟩

/-! ### The `len as u32` truncation of `DelegateDeltas::encode`

`encode` writes the map size as `(self.inner.len() as u32).to_le_bytes()`.
A map with `2^32` entries therefore encodes a count of `0` and fails to
round-trip.  The concrete map below has keys that are 4 big-endian index
bytes padded with 16 zero bytes, which is strictly increasing in the
`BTreeMap` byte order. -/

theorem bytesLt_append {x y : List Nat} (s t : List Nat)
    (hlen : x.length = y.length) (h : bytesLt x y = true) :
    bytesLt (x ++ s) (y ++ t) = true := by
  induction x generalizing y with
  | nil =>
    cases y with
    | nil => simp [bytesLt_irrefl] at h
    | cons b bs => simp at hlen
  | cons a as ih =>
    cases y with
    | nil => simp at hlen
    | cons b bs =>
      simp only [bytesLt, List.cons_append] at h ⊢
      rcases Nat.lt_trichotomy a b with hab | hab | hab
      · simp [hab]
      · subst hab
        simp only [Nat.lt_irrefl, if_false] at h ⊢
        exact ih (by simpa using hlen) h
      · simp [hab, Nat.lt_asymm hab] at h

theorem toBEBytes_lt : ∀ (w i j : Nat), i < j → j < 256 ^ w →
    bytesLt (toBEBytes w i) (toBEBytes w j) = true := by
  intro w
  induction w with
  | zero =>
    intro i j hij hj
    simp only [pow_zero] at hj
    omega
  | succ w ih =>
    intro i j hij hj
    simp only [toBEBytes, bytesLt]
    have hle : i / 256 ^ w ≤ j / 256 ^ w :=
      Nat.div_le_div_right (Nat.le_of_lt hij)
    rcases Nat.lt_or_ge (i / 256 ^ w) (j / 256 ^ w) with hdiv | hdiv
    · simp [hdiv]
    · have heq : i / 256 ^ w = j / 256 ^ w := by omega
      rw [heq]
      simp only [Nat.lt_irrefl, if_false]
      have hi := Nat.div_add_mod i (256 ^ w)
      have hj2 := Nat.div_add_mod j (256 ^ w)
      have hbd : 256 ^ w * (i / 256 ^ w) = 256 ^ w * (j / 256 ^ w) := by rw [heq]
      apply ih
      · omega
      · exact Nat.mod_lt j (Nat.pos_pow_of_pos w (by norm_num))

/-- Key `i` of the counterexample map: 4 big-endian bytes of `i` padded
to 20 bytes. -/
def beKey (i : Nat) : H160 :=
  toBEBytes 4 i ++ List.replicate 16 0

theorem beKey_length (i : Nat) : (beKey i).length = 20 := by
  simp [beKey, toBEBytes_length]

theorem beKey_lt {i j : Nat} (hij : i < j) (hj : j < 2 ^ 32) :
    bytesLt (beKey i) (beKey j) = true := by
  apply bytesLt_append _ _ (by simp [toBEBytes_length])
  exact toBEBytes_lt 4 i j hij (by norm_num at hj ⊢; omega)

/-- A `BTreeMap` with `2^32` entries, each keyed by `beKey i` and holding
a well-formed entry. -/
def bigDelegateMap : List (H160 × DelegateDelta) :=
  (List.range (2 ^ 32)).map fun i =>
    (beKey i, { staker := beKey i, delta := { is_increase := true, amount := 0 } })

theorem bigDelegateMap_wf : ∀ p ∈ bigDelegateMap, DelegateDeltas.EntryWf p := by
  intro p hp
  simp only [bigDelegateMap, List.mem_map] at hp
  obtain ⟨i, _, hpe⟩ := hp
  subst hpe
  exact ⟨rfl, beKey_length i, by norm_num [u128Mod]⟩

theorem bigDelegateMap_sorted :
    List.Pairwise (fun a b => bytesLt a.1 b.1 = true) bigDelegateMap := by
  rw [bigDelegateMap, List.pairwise_map]
  have hbase := List.pairwise_lt_range (2 ^ 32)
  refine hbase.imp_of_mem ?_
  intro i j hi hj hij
  exact beKey_lt hij (List.mem_range.mp hj)

theorem bigDelegateMap_length : bigDelegateMap.length = 2 ^ 32 := by
  simp [bigDelegateMap]

/-- **C8 (counterexample)** — the unrestricted round-trip claim fails: the
well-formed map with `2^32` entries encodes its size as
`(2^32) as u32 = 0`, so `decode (encode m)` returns the empty map, not
`m`. -/
theorem delegate_deltas_roundtrip_c8_counterexample :
    ((∀ p ∈ bigDelegateMap, DelegateDeltas.EntryWf p) ∧
      List.Pairwise (fun a b => bytesLt a.1 b.1 = true) bigDelegateMap) ∧
    DelegateDeltas.decode (DelegateDeltas.encode bigDelegateMap)
      ≠ .ok bigDelegateMap := by
  refine ⟨⟨bigDelegateMap_wf, bigDelegateMap_sorted⟩, ?_⟩
  have hlen := DelegateDeltas.encode_map_length bigDelegateMap bigDelegateMap_wf
  have htake : (DelegateDeltas.encode bigDelegateMap).take 4
      = toLEBytes 4 bigDelegateMap.length := by
    simp only [DelegateDeltas.encode]
    exact take_append_eq_of_length (toLEBytes_length 4 bigDelegateMap.length)
  have hzero : toLEBytes 4 bigDelegateMap.length = [0, 0, 0, 0] := by
    rw [bigDelegateMap_length]
    decide
  have hfrom : fromLEBytes ((DelegateDeltas.encode bigDelegateMap).take 4) = 0 := by
    rw [htake, hzero]
    decide
  have hd : DelegateDeltas.decode (DelegateDeltas.encode bigDelegateMap)
      = .ok [] := by
    simp only [DelegateDeltas.decode]
    rw [if_neg (by omega), hfrom]
    rfl
  rw [hd]
  intro hcontra
  have hnil : ([] : List (H160 × DelegateDelta)) = bigDelegateMap :=
    Except.ok.inj hcontra
  have := congrArg List.length hnil
  rw [bigDelegateMap_length] at this
  simp at this

/-! ## Association-list maps

`HashMap<K, V>` values of the aggregation builder, modelled as
association lists with distinct keys (`NodupKeys`).  `insertA` replaces
an existing binding in place, `removeA` drops the binding. -/

section AssocOps

variable {κ β : Type} [DecidableEq κ]

def lookupA : List (κ × β) → κ → Option β
  | [], _ => none
  | (k, v) :: rest, key => if k = key then some v else lookupA rest key

def insertA : List (κ × β) → κ → β → List (κ × β)
  | [], key, v => [(key, v)]
  | (k, w) :: rest, key, v =>
    if k = key then (key, v) :: rest else (k, w) :: insertA rest key v

def removeA (m : List (κ × β)) (key : κ) : List (κ × β) :=
  m.filter fun p => decide (p.1 ≠ key)

def containsA (m : List (κ × β)) (key : κ) : Bool :=
  (lookupA m key).isSome

def NodupKeys (m : List (κ × β)) : Prop :=
  List.Pairwise (fun a b => a.1 ≠ b.1) m

instance (m : List (κ × β)) : Decidable (NodupKeys m) := by
  unfold NodupKeys; infer_instance

theorem lookupA_insertA_self (m : List (κ × β)) (k : κ) (v : β) :
    lookupA (insertA m k v) k = some v := by
  induction m with
  | nil => simp [insertA, lookupA]
  | cons p rest ih =>
    obtain ⟨k1, v1⟩ := p
    by_cases hk : k1 = k
    · subst hk
      simp [insertA, lookupA]
    · simp [insertA, lookupA, hk, ih]

theorem lookupA_insertA_ne (m : List (κ × β)) {k k2 : κ} (v : β)
    (h : k ≠ k2) : lookupA (insertA m k v) k2 = lookupA m k2 := by
  induction m with
  | nil => simp [insertA, lookupA, h]
  | cons p rest ih =>
    obtain ⟨k1, v1⟩ := p
    by_cases hk : k1 = k
    · subst hk
      simp [insertA, lookupA, h]
    · simp only [insertA, if_neg hk, lookupA]
      by_cases hk2 : k1 = k2 <;> simp [hk2, ih]

theorem mem_insertA {m : List (κ × β)} {k : κ} {v : β} {q : κ × β}
    (h : q ∈ insertA m k v) : q ∈ m ∨ q = (k, v) := by
  induction m with
  | nil =>
    simp [insertA] at h
    simp [h]
  | cons p rest ih =>
    obtain ⟨k1, v1⟩ := p
    by_cases hk : k1 = k
    · subst hk
      simp only [insertA, if_pos rfl] at h
      rcases List.mem_cons.mp h with h1 | h1
      · right; exact h1
      · left; simp [h1]
    · simp only [insertA, if_neg hk] at h
      rcases List.mem_cons.mp h with h1 | h1
      · left; simp [h1]
      · rcases ih h1 with h2 | h2
        · left; simp [h2]
        · right; exact h2

theorem nodupKeys_insertA {m : List (κ × β)} (k : κ) (v : β)
    (h : NodupKeys m) : NodupKeys (insertA m k v) := by
  induction m with
  | nil => simp [insertA, NodupKeys]
  | cons p rest ih =>
    obtain ⟨k1, v1⟩ := p
    rw [NodupKeys, List.pairwise_cons] at h
    by_cases hk : k1 = k
    · subst hk
      rw [insertA, if_pos rfl, NodupKeys, List.pairwise_cons]
      exact ⟨fun q hq => h.1 q hq, h.2⟩
    · rw [insertA, if_neg hk, NodupKeys, List.pairwise_cons]
      refine ⟨?_, ih h.2⟩
      intro q hq
      rcases mem_insertA hq with h1 | h1
      · exact h.1 q h1
      · subst h1
        exact hk

theorem lookupA_of_mem {m : List (κ × β)} {k : κ} {v : β}
    (hnd : NodupKeys m) (hmem : (k, v) ∈ m) : lookupA m k = some v := by
  induction m with
  | nil => simp at hmem
  | cons p rest ih =>
    obtain ⟨k1, v1⟩ := p
    rw [NodupKeys, List.pairwise_cons] at hnd
    rcases List.mem_cons.mp hmem with h1 | h1
    · rw [← h1]
      simp [lookupA]
    · have hne : k1 ≠ k := hnd.1 (k, v) h1
      simp only [lookupA, if_neg hne]
      exact ih hnd.2 h1

end AssocOps

/-! ## Stake aggregation builder (`tx-builder/src/ckb/stake_smt.rs`)

The candidate fold of `StakeSmtTxBuilder::collect` and the top-K eviction
`collect_non_top_stakers`, over parsed cells.  Cell payloads are consumed
through the molecule accessor contracts (out of scope per the spec), so a
candidate cell appears here already parsed: the staker address from the
lock args and the delta item from the cell data. -/

/-- The delta item carried in a stake-AT cell (`StakeItem`, consumed via
`Stake::item(&stake_data.lock().delta())`). -/
structure StakeItem where
  is_increase : Bool
  amount : Nat
  inauguration_epoch : Nat
deriving DecidableEq, Repr

/-- A candidate stake-AT cell in parsed form; `total` is the leading
16-byte token amount of the cell data (unused by the fold itself). -/
structure Cell where
  staker : H160
  total : Nat
  delta : StakeItem
deriving DecidableEq, Repr

/-- Modelled from the spec: the constant `INAUGURATION` lives in
`tx-builder/src/ckb/define/constants.rs`, which is not under `src/`;
the spec fixes it ("decisions made at epoch `e` take effect at epoch
`e + 2` (INAUGURATION = 2)"). -/
def INAUGURATION : Nat := 2

/-- The error variants of `CkbTxErr` used by the modelled code paths
(`Increase` for a new entrant with a decrease delta, `SmtUnderflow` for a
leaf decrease below zero in the SMT store). -/
inductive CkbTxErr where
  | Increase (is_increase : Bool)
  | SmtUnderflow
deriving DecidableEq, Repr

/-- The accumulator of the candidate fold in `collect`. -/
structure CollectSt where
  new_smt : List (H160 × Nat)
  withdraw_amounts : List (H160 × Nat)
  inputs_stake_cells : List (H160 × Cell)
deriving DecidableEq, Repr

/-- One iteration of the candidate loop of `collect`
(`stake_smt.rs:290-323`): skip stale candidates, record the cell under
its staker, then update `new_smt` / `withdraw_amounts` according to the
delta direction; a new entrant with a decrease is the fatal `Increase`
error.  The `u128` addition wraps modulo `2^128`. -/
def collectStep (current_epoch : Nat) (st : CollectSt) (cell : Cell) :
    Except CkbTxErr CollectSt :=
  if cell.delta.inauguration_epoch < current_epoch + INAUGURATION then .ok st
  else
    let st1 : CollectSt :=
      { st with inputs_stake_cells := insertA st.inputs_stake_cells cell.staker cell }
    match lookupA st1.new_smt cell.staker with
    | some origin =>
      if cell.delta.is_increase then
        .ok { st1 with
              new_smt := insertA st1.new_smt cell.staker
                ((origin + cell.delta.amount) % u128Mod) }
      else if origin < cell.delta.amount then
        .ok { st1 with
              withdraw_amounts := insertA st1.withdraw_amounts cell.staker origin }
      else
        .ok { st1 with
              new_smt := insertA st1.new_smt cell.staker
                (origin - cell.delta.amount),
              withdraw_amounts := insertA st1.withdraw_amounts cell.staker
                cell.delta.amount }
    | none =>
      if !cell.delta.is_increase then .error (.Increase cell.delta.is_increase)
      else .ok { st1 with new_smt := insertA st1.new_smt cell.staker cell.delta.amount }

/-- The candidate loop of `collect`, starting from `new_smt = old_smt.clone()`,
empty withdraw amounts and empty inputs; the first error aborts. -/
def collectFold (current_epoch : Nat) : List Cell → CollectSt → Except CkbTxErr CollectSt
  | [], st => .ok st
  | c :: rest, st =>
    match collectStep current_epoch st c with
    | .error e => .error e
    | .ok st1 => collectFold current_epoch rest st1

/-- The sort key of `all_stakes.sort_unstable_by_key(|v| v.1)`: compare
map entries by their amount. -/
def amtLe (a b : H160 × Nat) : Prop := a.2 ≤ b.2

instance : DecidableRel amtLe := fun a b => Nat.decLe a.2 b.2

instance : IsTotal (H160 × Nat) amtLe := ⟨fun a b => Nat.le_total a.2 b.2⟩

instance : IsTrans (H160 × Nat) amtLe := ⟨fun _ _ _ h1 h2 => Nat.le_trans h1 h2⟩

/-- `collect_non_top_stakers` (`stake_smt.rs:391-417`): when the map
exceeds `3·quorum`, sort ascending by amount (`sort_unstable_by_key`; the
tie order of the unstable sort is modelled by insertion sort, which the
claims do not depend on), evict the lowest `len − 3·quorum` from
`new_smt`, and return them flagged with their membership in `old_smt`. -/
def collect_non_top_stakers (quorum : Nat) (old_smt : List (H160 × Nat))
    (new_smt : List (H160 × Nat)) :
    List (H160 × Nat) × List (H160 × Bool) :=
  if new_smt.length ≤ 3 * quorum then (new_smt, [])
  else
    let all_stakes := List.insertionSort amtLe new_smt
    let delete_count := all_stakes.length - 3 * quorum
    let non_top := all_stakes.take delete_count
    (non_top.foldl (fun m p => removeA m p.1) new_smt,
     non_top.map fun p => (p.1, containsA old_smt p.1))

/-- The loop over `non_top_stakers` after the eviction
(`stake_smt.rs:327-351`): an evicted staker still in `old_smt` gets a
full-leaf withdraw and, when it contributed no candidate cell, its
current on-chain stake cell is fetched (`chainCells` stands for the
live-cell lookup, whose `unwrap` panic on a missing cell is outside the
modelled claims); an evicted brand-new entrant is dropped from the
inputs. -/
def processNonTop (chainCells : H160 → Cell) (old_smt : List (H160 × Nat)) :
    List (H160 × Bool) → List (H160 × Nat) → List (H160 × Cell) →
    List (H160 × Nat) × List (H160 × Cell)
  | [], withdraw, inputs => (withdraw, inputs)
  | (staker, in_smt) :: rest, withdraw, inputs =>
    if in_smt then
      processNonTop chainCells old_smt rest
        (insertA withdraw staker ((lookupA old_smt staker).getD 0))
        (if containsA inputs staker then inputs
         else insertA inputs staker (chainCells staker))
    else
      processNonTop chainCells old_smt rest withdraw (removeA inputs staker)

/-- `StakeSmtTxBuilder::collect` up to its SMT-proof bookkeeping: fold the
candidates, evict the non-top stakers, then settle their withdraw amounts
and input cells.  Returns `(new_smt, non_top_stakers, withdraw_amounts,
inputs_stake_cells)`. -/
def collect (chainCells : H160 → Cell) (current_epoch quorum : Nat)
    (old_smt : List (H160 × Nat)) (stake_cells : List Cell) :
    Except CkbTxErr
      (List (H160 × Nat) × List (H160 × Bool) × List (H160 × Nat) × List (H160 × Cell)) :=
  match collectFold current_epoch stake_cells ⟨old_smt, [], []⟩ with
  | .error e => .error e
  | .ok st =>
    let pair := collect_non_top_stakers quorum old_smt st.new_smt
    let settled := processNonTop chainCells old_smt pair.2
      st.withdraw_amounts st.inputs_stake_cells
    .ok (pair.1, pair.2, settled.1, settled.2)

/-- **C4** — new entrant: a candidate whose staker is absent from
`new_smt` and whose delta is a decrease makes `collect` fail with the
fatal `Increase` error (an `Err`, no `new_smt` entry created); with an
increase delta the staker's leaf is created with value `delta.amount`. -/
theorem collect_new_entrant_c4 (ce : Nat) (st : CollectSt) (cell : Cell)
    (hstale : ce + INAUGURATION ≤ cell.delta.inauguration_epoch)
    (hfresh : lookupA st.new_smt cell.staker = none) :
    (cell.delta.is_increase = false →
      collectStep ce st cell = .error (.Increase false)) ∧
    (cell.delta.is_increase = true →
      ∃ st1, collectStep ce st cell = .ok st1 ∧
        lookupA st1.new_smt cell.staker = some cell.delta.amount) := by
  constructor
  · intro hinc
    simp only [collectStep, if_neg (Nat.not_lt.mpr hstale), hfresh, hinc]
    rfl
  · intro hinc
    refine ⟨{ new_smt := insertA st.new_smt cell.staker cell.delta.amount,
              withdraw_amounts := st.withdraw_amounts,
              inputs_stake_cells := insertA st.inputs_stake_cells cell.staker cell },
            ?_, ?_⟩
    · simp only [collectStep, if_neg (Nat.not_lt.mpr hstale), hfresh, hinc]
      rfl
    · exact lookupA_insertA_self st.new_smt cell.staker cell.delta.amount

/-- Witness for C4 at a concrete new-entrant candidate. -/
theorem collect_new_entrant_c4_witness :
    (10 + INAUGURATION ≤ 12 ∧
      lookupA (CollectSt.mk [] [] []).new_smt [170] = none) ∧
    ((StakeItem.mk false 5 12).is_increase = false →
      collectStep 10 (CollectSt.mk [] [] []) (Cell.mk [170] 0 (StakeItem.mk false 5 12))
        = .error (.Increase false)) :=
  ⟨⟨by decide, by decide⟩,
   (collect_new_entrant_c4 10 (CollectSt.mk [] [] [])
     (Cell.mk [170] 0 (StakeItem.mk false 5 12)) (by decide) (by decide)).1⟩

/-- **C3 (counterexample)** — the claim says a decrease with
`delta.amount ≥ new_smt[staker]` leaves the staker's leaf unchanged; but
for `delta.amount = new_smt[staker]` the code takes the
`origin − delta.amount` branch and sets the leaf to `0`.  Concretely:
leaf `5`, decrease `5` (inauguration 12, current epoch 10) yields a leaf
of `0`, not `5`. -/
theorem collect_overshoot_decrease_c3_counterexample :
    lookupA (CollectSt.mk [([170], 5)] [] []).new_smt [170] = some 5 ∧
    (StakeItem.mk false 5 12).is_increase = false ∧
    5 ≤ (StakeItem.mk false 5 12).amount ∧
    (collectStep 10 (CollectSt.mk [([170], 5)] [] [])
        (Cell.mk [170] 0 (StakeItem.mk false 5 12))).toOption.map
      (fun st => lookupA st.new_smt [170]) = some (some 0) ∧
    some (0 : Nat) ≠ some 5 := by
  decide

/-- **C3 (amended)** — overshooting decrease: for a non-stale candidate
whose staker holds leaf `origin` and whose delta is a decrease with
`delta.amount ≥ origin`, the fold records `withdraw_amounts[staker] =
origin` (the full current leaf, never more); the leaf stays `origin`
when `delta.amount > origin` and becomes `0` when `delta.amount =
origin`; in particular the leaf never goes below zero and the withdraw
never exceeds the leaf. -/
theorem collect_overshoot_decrease_c3 (ce : Nat) (st : CollectSt) (cell : Cell)
    (origin : Nat)
    (hstale : ce + INAUGURATION ≤ cell.delta.inauguration_epoch)
    (hmem : lookupA st.new_smt cell.staker = some origin)
    (hdec : cell.delta.is_increase = false)
    (hge : origin ≤ cell.delta.amount) :
    ∃ st1, collectStep ce st cell = .ok st1 ∧
      lookupA st1.withdraw_amounts cell.staker = some origin ∧
      lookupA st1.new_smt cell.staker
        = some (if origin < cell.delta.amount then origin else 0) := by
  by_cases hlt : origin < cell.delta.amount
  · refine ⟨{ new_smt := st.new_smt,
              withdraw_amounts := insertA st.withdraw_amounts cell.staker origin,
              inputs_stake_cells := insertA st.inputs_stake_cells cell.staker cell },
            ?_, ?_, ?_⟩
    · simp only [collectStep, if_neg (Nat.not_lt.mpr hstale), hmem, hdec,
        if_pos hlt]
      rfl
    · exact lookupA_insertA_self st.withdraw_amounts cell.staker origin
    · simpa [hlt] using hmem
  · have heq : cell.delta.amount = origin := by omega
    refine ⟨{ new_smt := insertA st.new_smt cell.staker (origin - cell.delta.amount),
              withdraw_amounts :=
                insertA st.withdraw_amounts cell.staker cell.delta.amount,
              inputs_stake_cells := insertA st.inputs_stake_cells cell.staker cell },
            ?_, ?_, ?_⟩
    · simp only [collectStep, if_neg (Nat.not_lt.mpr hstale), hmem, hdec,
        if_neg hlt]
      rfl
    · rw [show origin = cell.delta.amount from heq.symm]
      exact lookupA_insertA_self st.withdraw_amounts cell.staker cell.delta.amount
    · simp only [if_neg hlt]
      rw [show (0 : Nat) = origin - cell.delta.amount by omega]
      exact lookupA_insertA_self st.new_smt cell.staker (origin - cell.delta.amount)

/-- Witness for the amended C3 at a concrete overshooting candidate
(leaf 5, decrease 9). -/
theorem collect_overshoot_decrease_c3_witness :
    (10 + INAUGURATION ≤ 12 ∧
      lookupA (CollectSt.mk [([170], 5)] [] []).new_smt [170] = some 5 ∧
      (5 : Nat) ≤ 9) ∧
    (∃ st1, collectStep 10 (CollectSt.mk [([170], 5)] [] [])
        (Cell.mk [170] 0 (StakeItem.mk false 9 12)) = .ok st1 ∧
      lookupA st1.withdraw_amounts [170] = some 5 ∧
      lookupA st1.new_smt [170] = some (if 5 < 9 then 5 else 0)) :=
  ⟨⟨by decide, by decide, by decide⟩,
   collect_overshoot_decrease_c3 10 (CollectSt.mk [([170], 5)] [] [])
     (Cell.mk [170] 0 (StakeItem.mk false 9 12)) 5
     (by decide) (by decide) (by decide) (by decide)⟩

/-! ### Top-K eviction (C1) -/

theorem collectStep_nodup {ce : Nat} {st st1 : CollectSt} {cell : Cell}
    (h : collectStep ce st cell = .ok st1) (hnd : NodupKeys st.new_smt) :
    NodupKeys st1.new_smt := by
  unfold collectStep at h
  by_cases hstale : cell.delta.inauguration_epoch < ce + INAUGURATION
  · rw [if_pos hstale] at h
    cases h
    exact hnd
  · rw [if_neg hstale] at h
    cases hl : lookupA st.new_smt cell.staker with
    | some origin =>
      simp only [hl] at h
      by_cases hinc : cell.delta.is_increase = true
      · rw [if_pos hinc] at h
        cases h
        exact nodupKeys_insertA _ _ hnd
      · rw [if_neg hinc] at h
        by_cases hlt : origin < cell.delta.amount
        · rw [if_pos hlt] at h
          cases h
          exact hnd
        · rw [if_neg hlt] at h
          cases h
          exact nodupKeys_insertA _ _ hnd
    | none =>
      simp only [hl] at h
      by_cases hinc : cell.delta.is_increase = true
      · rw [if_neg (by rw [hinc]; simp)] at h
        cases h
        exact nodupKeys_insertA _ _ hnd
      · have hfalse : cell.delta.is_increase = false := by
          cases hb : cell.delta.is_increase
          · rfl
          · exact absurd hb hinc
        rw [if_pos (by rw [hfalse]; rfl)] at h
        cases h

theorem collectFold_nodup {ce : Nat} :
    ∀ {cells : List Cell} {st st1 : CollectSt},
    collectFold ce cells st = .ok st1 → NodupKeys st.new_smt →
    NodupKeys st1.new_smt := by
  intro cells
  induction cells with
  | nil =>
    intro st st1 h hnd
    cases h
    exact hnd
  | cons c rest ih =>
    intro st st1 h hnd
    unfold collectFold at h
    cases hstep : collectStep ce st c with
    | error e => rw [hstep] at h; cases h
    | ok st2 =>
      rw [hstep] at h
      exact ih h (collectStep_nodup hstep hnd)

theorem foldl_removeA_eq_filter {β : Type} :
    ∀ (nt : List (H160 × Nat)) (m : List (H160 × β)),
    nt.foldl (fun acc p => removeA acc p.1) m
      = m.filter fun q => decide (q.1 ∉ nt.map Prod.fst) := by
  intro nt
  induction nt with
  | nil =>
    intro m
    simp
  | cons p rest ih =>
    intro m
    simp only [List.foldl_cons]
    rw [ih (removeA m p.1), removeA, List.filter_filter]
    apply List.filter_congr
    intro q _
    by_cases h1 : q.1 = p.1 <;> by_cases h2 : q.1 ∈ rest.map Prod.fst <;>
      simp [h1, h2]

theorem length_filter_not_add {α : Type} (l : List α) (p : α → Bool) :
    (l.filter p).length + (l.filter fun a => !(p a)).length = l.length := by
  induction l with
  | nil => rfl
  | cons a rest ih =>
    by_cases h : p a = true <;>
      simp only [List.filter_cons, h, Bool.not_true, Bool.not_false, if_true,
        if_false, List.length_cons] <;>
      simp [h] <;>
      omega

/-- The eviction spec on an arbitrary map with distinct keys: the
retained map has at most `3·quorum` entries, and each evicted staker's
amount is at most every retained amount. -/
theorem collect_non_top_spec (quorum : Nat) (old_smt m : List (H160 × Nat))
    (hnd : NodupKeys m) :
    (collect_non_top_stakers quorum old_smt m).1.length ≤ 3 * quorum ∧
    (∀ s b, (s, b) ∈ (collect_non_top_stakers quorum old_smt m).2 →
      ∃ a, lookupA m s = some a ∧
        ∀ k v, (k, v) ∈ (collect_non_top_stakers quorum old_smt m).1 → a ≤ v) := by
  by_cases hle : m.length ≤ 3 * quorum
  · constructor
    · simp [collect_non_top_stakers, hle]
    · intro s b hsb
      simp [collect_non_top_stakers, hle] at hsb
  · have hperm : List.Perm (List.insertionSort amtLe m) m :=
      List.perm_insertionSort amtLe m
    have hsorted : List.Sorted amtLe (List.insertionSort amtLe m) :=
      List.sorted_insertionSort amtLe m
    have hslen : (List.insertionSort amtLe m).length = m.length := hperm.length_eq
    simp only [collect_non_top_stakers, if_neg hle]
    set sorted := List.insertionSort amtLe m with hsdef
    set d := sorted.length - 3 * quorum with hddef
    set nt := sorted.take d with hntdef
    have hdlen : nt.length = d := by
      rw [hntdef, List.length_take]
      omega
    have hfilter := foldl_removeA_eq_filter nt m
    have hdec2 : sorted = nt ++ sorted.drop d := by
      rw [hntdef, List.take_append_drop]
    constructor
    · rw [hfilter]
      have hsplit := length_filter_not_add m
        (fun q => decide (q.1 ∉ nt.map Prod.fst))
      have hpermf : (m.filter fun q => !(decide (q.1 ∉ nt.map Prod.fst))).length
          = (sorted.filter fun q => !(decide (q.1 ∉ nt.map Prod.fst))).length :=
        ((hperm.symm).filter _).length_eq
      have hntfull : (nt.filter fun q => !(decide (q.1 ∉ nt.map Prod.fst))) = nt := by
        rw [List.filter_eq_self]
        intro q hq
        simp only [Bool.not_eq_true']
        simp only [decide_eq_false_iff_not, not_not]
        exact List.mem_map_of_mem Prod.fst hq
      have hgecount : d ≤ (sorted.filter
          fun q => !(decide (q.1 ∉ nt.map Prod.fst))).length := by
        conv_lhs => rw [← hdlen]
        rw [hdec2, List.filter_append, List.length_append, hntfull]
        omega
      omega
    · intro s b hsb
      simp only [List.mem_map] at hsb
      obtain ⟨p, hp, hpe⟩ := hsb
      have hps : p.1 = s := by
        have := congrArg Prod.fst hpe
        simpa using this
      refine ⟨p.2, ?_, ?_⟩
      · have hpm : p ∈ m := hperm.mem_iff.mp (List.mem_of_mem_take hp)
        rw [← hps]
        exact lookupA_of_mem hnd (by simpa using hpm)
      · intro k v hkv
        rw [hfilter] at hkv
        have hkv2 := List.mem_filter.mp hkv
        have hknotin : k ∉ nt.map Prod.fst := by simpa using hkv2.2
        have hkvs : (k, v) ∈ sorted := hperm.mem_iff.mpr hkv2.1
        have hkvd : (k, v) ∈ sorted.drop d := by
          rw [hdec2] at hkvs
          rcases List.mem_append.mp hkvs with h1 | h1
          · exact absurd (List.mem_map_of_mem Prod.fst h1) hknotin
          · exact h1
        have hpair : List.Pairwise amtLe (nt ++ sorted.drop d) := by
          rw [← hdec2]
          exact hsorted
        exact (List.pairwise_append.mp hpair).2.2 p hp (k, v) hkvd

/-- **C1** — aggregation top-K: for every candidate batch and quorum `q`,
after the stake aggregation's fold and `collect_non_top_stakers` (as run
by `build_tx`/`collect`), the retained `new_smt` has at most `3·q`
entries, and every staker evicted as non-top has an amount less than or
equal to the amount of every retained staker. -/
theorem stake_aggregation_topk_c1 (quorum ce : Nat) (stake_cells : List Cell)
    (old_smt : List (H160 × Nat)) (st : CollectSt)
    (hnd : NodupKeys old_smt)
    (hok : collectFold ce stake_cells (CollectSt.mk old_smt [] []) = .ok st) :
    (collect_non_top_stakers quorum old_smt st.new_smt).1.length ≤ 3 * quorum ∧
    (∀ s b, (s, b) ∈ (collect_non_top_stakers quorum old_smt st.new_smt).2 →
      ∃ a, lookupA st.new_smt s = some a ∧
        ∀ k v, (k, v) ∈ (collect_non_top_stakers quorum old_smt st.new_smt).1 →
          a ≤ v) :=
  collect_non_top_spec quorum old_smt st.new_smt (collectFold_nodup hok hnd)

/-- Witness for C1: quorum 1, four stakers in the inaugurated epoch, no
candidate cells; the lowest staker is evicted and the retained map keeps
the three largest. -/
theorem stake_aggregation_topk_c1_witness :
    (NodupKeys [([1], 10), ([2], 20), ([3], 30), ([4], 40)] ∧
      collectFold 10 []
        (CollectSt.mk [([1], 10), ([2], 20), ([3], 30), ([4], 40)] [] [])
        = .ok (CollectSt.mk [([1], 10), ([2], 20), ([3], 30), ([4], 40)] [] [])) ∧
    ((collect_non_top_stakers 1 [([1], 10), ([2], 20), ([3], 30), ([4], 40)]
        (CollectSt.mk [([1], 10), ([2], 20), ([3], 30), ([4], 40)] [] []).new_smt).1.length
      ≤ 3 * 1) :=
  ⟨⟨by decide, rfl⟩,
   (stake_aggregation_topk_c1 1 10 []
     [([1], 10), ([2], 20), ([3], 30), ([4], 40)]
     (CollectSt.mk [([1], 10), ([2], 20), ([3], 30), ([4], 40)] [] [])
     (by decide) rfl).1⟩

/-! ## Storage layer

The three stores used by the sync dispatcher: the SMT backend, the
RocksDB key-value store (`storage/src/kvdb.rs`) and the relational
history store (`storage/src/relation_db/mod.rs`). -/

/-- Modelled from the spec: the SMT backend `SmtManager`
(`storage/src/smt.rs`) is not under `src/`; per spec §4.A a store maps an
epoch to its leaf set keyed by staker, with `new_epoch`, `insert`,
`get_amount` and `get_sub_leaves`. -/
structure SmtStore where
  leaves : List (Nat × List (H160 × Nat))
deriving DecidableEq, Repr

/-- One entry of an SMT `insert` batch (`UserAmount`). -/
structure UserAmount where
  user : H160
  amount : Nat
  is_increase : Bool
deriving DecidableEq, Repr

namespace SmtStore

def get_sub_leaves (s : SmtStore) (epoch : Nat) : List (H160 × Nat) :=
  (lookupA s.leaves epoch).getD []

def get_amount (s : SmtStore) (epoch : Nat) (user : H160) : Option Nat :=
  lookupA (s.get_sub_leaves epoch) user

/-- Modelled from the spec: `new_epoch(epoch)` initializes the epoch's
working set by cloning the leaves of `epoch − 1`; idempotent. -/
def new_epoch (epoch : Nat) (s : SmtStore) : SmtStore :=
  if containsA s.leaves epoch then s
  else ⟨insertA s.leaves epoch (s.get_sub_leaves (epoch - 1))⟩

/-- Modelled from the spec: `insert` adds (or subtracts) each entry's
amount at its leaf; a decrease below zero is a fatal error. -/
def insertLeaf (leaves : List (H160 × Nat)) (ua : UserAmount) :
    Except CkbTxErr (List (H160 × Nat)) :=
  let current := (lookupA leaves ua.user).getD 0
  if ua.is_increase then
    .ok (insertA leaves ua.user ((current + ua.amount) % u128Mod))
  else if current < ua.amount then .error .SmtUnderflow
  else .ok (insertA leaves ua.user (current - ua.amount))

def insert (s : SmtStore) (epoch : Nat) (entries : List UserAmount) :
    Except CkbTxErr SmtStore :=
  match entries.foldlM insertLeaf (s.get_sub_leaves epoch) with
  | .error e => .error e
  | .ok leaves1 => .ok ⟨insertA s.leaves epoch leaves1⟩

end SmtStore

/-- The key-value status store (`storage/src/kvdb.rs`): two column
families, `c_stake` and `c_delegate`. -/
structure KVDB where
  stakeCol : List (List Nat × List Nat)
  delegateCol : List (List Nat × List Nat)
deriving DecidableEq, Repr

/-- The reserved singleton key: the bytes of the string used by the
source for the current-epoch marker. -/
def CURRENT_EPOCH_KEY : List Nat :=
  [99, 117, 114, 114, 101, 110, 116, 95, 101, 112, 111, 99, 104]

namespace KVDB

def insert_staker_status (db : KVDB) (key value : List Nat) : KVDB :=
  { db with stakeCol := insertA db.stakeCol key value }

/-- `insert_current_epoch`: put the 8 little-endian bytes of the `u64`
epoch into the stake column under the reserved key. -/
def insert_current_epoch (db : KVDB) (epoch : Nat) : KVDB :=
  { db with stakeCol := insertA db.stakeCol CURRENT_EPOCH_KEY (toLEBytes 8 epoch) }

def get_staker_status (db : KVDB) (key : List Nat) : Option (List Nat) :=
  lookupA db.stakeCol key

def insert_delegator_status (db : KVDB) (key value : List Nat) : KVDB :=
  { db with delegateCol := insertA db.delegateCol key value }

def get_delegator_status (db : KVDB) (key : List Nat) : Option (List Nat) :=
  lookupA db.delegateCol key

end KVDB

/-- A `transaction_history` row.  The source stores the address as its
hex string; hex encoding being injective, the model keys rows by the
address bytes directly. -/
structure HistoryRow where
  id : Nat
  tx_hash : List Nat
  tx_block : Nat
  address : H160
  amount : Int
  operation : Nat
  event : Nat
  epoch : Nat
  status : Option Nat
  timestamp : Nat
deriving DecidableEq, Repr

/-- A `total_amount` row (without its address key). -/
structure Totals where
  stake_amount : Int
  delegate_amount : Int
  withdrawable_amount : Int
  reward_lock_amount : Int
  reward_unlock_amount : Int
deriving DecidableEq, Repr

/-- The relational store: the append-only history table and the
per-address totals. -/
structure RelationDB where
  history : List HistoryRow
  totals : List (H160 × Totals)
deriving DecidableEq, Repr

namespace RelationDB

/-- `get_id`: the largest id in the history table (`order_by_desc(Id)`,
first row), defaulting to 0. -/
def get_id (db : RelationDB) : Nat :=
  db.history.foldl (fun acc r => max acc r.id) 0

/-- `insert_history`: upsert the address's `total_amount` row (creating
it on first sight, else summing the amount into the field selected by
the operation code), then append the history row. -/
def insert_history (db : RelationDB) (row : HistoryRow) : RelationDB :=
  let totals1 :=
    match lookupA db.totals row.address with
    | none =>
      let base : Totals := ⟨0, 0, 0, 0, 0⟩
      let t :=
        if row.operation = 0 then { base with stake_amount := row.amount }
        else if row.operation = 1 then { base with delegate_amount := row.amount }
        else if row.operation = 2 then { base with reward_lock_amount := row.amount }
        else base
      insertA db.totals row.address t
    | some t =>
      let t1 :=
        if row.operation = 0 then
          { t with stake_amount := t.stake_amount + row.amount }
        else if row.operation = 1 then
          { t with delegate_amount := t.delegate_amount + row.amount }
        else if row.operation = 2 then
          { t with reward_lock_amount := t.reward_lock_amount + row.amount }
        else t
      insertA db.totals row.address t1
  { history := db.history ++ [row], totals := totals1 }

/-- Rows ordered ascending by id, as `cursor_by(Column::Id)` returns
them. -/
def sortById (rows : List HistoryRow) : List HistoryRow :=
  List.insertionSort (fun a b => a.id ≤ b.id) rows

/-- `get_records_by_address`: filter by address, then
`cursor.after(offset).before(offset + limit)` — both cursor bounds are
exclusive (`sea_orm` filters the key column strictly greater than /
strictly less than the given value), so the returned ids lie in the open
interval `(offset, offset + limit)`. -/
def get_records_by_address (db : RelationDB) (addr : H160)
    (offset limit : Nat) : List HistoryRow :=
  sortById (db.history.filter fun r =>
    decide (r.address = addr) && decide (offset < r.id) &&
      decide (r.id < offset + limit))

/-- `get_operation_history`: filter by address and operation (and the
event when given), with the same exclusive cursor bounds. -/
def get_operation_history (db : RelationDB) (addr : H160) (operation : Nat)
    (event : Option Nat) (offset limit : Nat) : List HistoryRow :=
  let base : List HistoryRow :=
    match event with
    | some evt =>
      db.history.filter fun (r : HistoryRow) =>
        decide (r.address = addr) && decide (r.operation = operation) &&
          decide (r.event = evt)
    | none =>
      db.history.filter fun (r : HistoryRow) =>
        decide (r.address = addr) && decide (r.operation = operation)
  sortById (base.filter fun (r : HistoryRow) =>
    decide (offset < r.id) && decide (r.id < offset + limit))

end RelationDB

/-- **C9 (code bug)** — paginated history queries drop the boundary row:
with rows `id = 1, 2` for an address, the cursor bounds
`after(0).before(0 + 2)` are both exclusive, so `(offset, limit) = (0, 2)`
returns only the row with id 1, while the claim (and the evident
pagination intent, `offset = page·limit`) requires the ids in `(0, 2]`,
i.e. both rows; the row with `id = offset + limit` is returned by no
page. -/
theorem pagination_boundary_c9 :
    RelationDB.get_records_by_address
      (RelationDB.mk
        [HistoryRow.mk 1 [9] 5 [170] 0 0 1 10 none 1000,
         HistoryRow.mk 2 [9] 5 [170] 0 0 1 10 none 1001] [])
      [170] 0 2
      = [HistoryRow.mk 1 [9] 5 [170] 0 0 1 10 none 1000] ∧
    (HistoryRow.mk 2 [9] 5 [170] 0 0 1 10 none 1001).address = [170] ∧
    0 < (HistoryRow.mk 2 [9] 5 [170] 0 0 1 10 none 1001).id ∧
    (HistoryRow.mk 2 [9] 5 [170] 0 0 1 10 none 1001).id ≤ 0 + 2 ∧
    HistoryRow.mk 2 [9] 5 [170] 0 0 1 10 none 1001 ∉
      RelationDB.get_records_by_address
        (RelationDB.mk
          [HistoryRow.mk 1 [9] 5 [170] 0 0 1 10 none 1000,
           HistoryRow.mk 2 [9] 5 [170] 0 0 1 10 none 1001] [])
        [170] 0 2 ∧
    RelationDB.get_operation_history
      (RelationDB.mk
        [HistoryRow.mk 1 [9] 5 [170] 0 0 1 10 none 1000,
         HistoryRow.mk 2 [9] 5 [170] 0 0 1 10 none 1001] [])
      [170] 0 none 0 2
      = [HistoryRow.mk 1 [9] 5 [170] 0 0 1 10 none 1000] := by
  decide

/-! ## Sync dispatcher (`sync/src/lib.rs`) -/

instance {ε α : Type} [DecidableEq ε] [DecidableEq α] :
    DecidableEq (Except ε α) := fun x y =>
  match x, y with
  | .error e1, .error e2 =>
    if h : e1 = e2 then .isTrue (by rw [h]) else .isFalse (by simp [h])
  | .error _, .ok _ => .isFalse (by simp)
  | .ok _, .error _ => .isFalse (by simp)
  | .ok a1, .ok a2 =>
    if h : a1 = a2 then .isTrue (by rw [h]) else .isFalse (by simp [h])

/-- The mutable state owned by the `Synchronization` task: the epoch
marker and the four stores (the reward SMT is held but untouched by the
modelled handlers). -/
structure SyncState where
  current_epoch : Nat
  stake_smt : SmtStore
  delegate_smt : SmtStore
  reward_smt : SmtStore
  kvdb : KVDB
  storage : RelationDB
deriving DecidableEq, Repr

/-- `handle_new_epoch` (`sync/src/lib.rs:157-163`): store the epoch into
the shared atomic, run `new_epoch` on the stake and delegate SMTs, and
persist the epoch marker into the key-value store. -/
def handle_new_epoch (new_epoch : Nat) (st : SyncState) : SyncState :=
  { st with
    current_epoch := new_epoch,
    stake_smt := SmtStore.new_epoch new_epoch st.stake_smt,
    delegate_smt := SmtStore.new_epoch new_epoch st.delegate_smt,
    kvdb := st.kvdb.insert_current_epoch new_epoch }

/-- The parsed view of a stake-AT transaction output: the staker from the
lock args and the delta from the cell data (consumed through the molecule
accessor contracts). -/
structure StakeTx where
  staker : H160
  is_increase : Bool
  amount : Nat
  tx_hash : List Nat
  block_number : Nat
  timestamp : Nat
deriving DecidableEq, Repr

/-- A `u128` value truncated by an `as u64` cast. -/
def u64Of (n : Nat) : Nat := n % 2 ^ 64

/-- A `u64` value reinterpreted by an `as i64` cast. -/
def i64OfU64 (n : Nat) : Int :=
  if n < 2 ^ 63 then (n : Int) else (n : Int) - 2 ^ 64

/-- The `u128` delta computed by `handle_stake_tx`:
`original ± new.amount` with wrap-around on overflow or underflow. -/
def deltaU128 (original amount : Nat) (inc : Bool) : Nat :=
  if inc then (original + amount) % u128Mod
  else (u128Mod + original - amount) % u128Mod

/-- The effect of the trailing `StakeSmtTxBuilder::build_tx` call on the
stake SMT store (`update_stake_smt`): run `collect` over the (empty)
candidate batch against the leaves of the inauguration epoch and insert
the resulting map back with `is_increase: true`. -/
def builder_update_smt (chainCells : H160 → Cell) (epoch quorum : Nat)
    (s : SmtStore) : Except CkbTxErr SmtStore :=
  match collect chainCells epoch quorum
      (s.get_sub_leaves (epoch + INAUGURATION)) [] with
  | .error e => .error e
  | .ok res =>
    s.insert (epoch + INAUGURATION) (res.1.map fun p => ⟨p.1, p.2, true⟩)

/-- `handle_stake_tx` (`sync/src/lib.rs:271-349`): read the staker's
current leaf at `current_epoch`, compute the new total (cast `as u64`
then `as i64` for the history row), insert the history row (which also
upserts the address totals), insert `{staker, amount, is_increase: true}`
into the stake SMT, and run the stake aggregation builder with quorum 10
and no candidate cells.  No key-value store operation occurs anywhere in
the handler. -/
def handle_stake_tx (chainCells : H160 → Cell) (tx : StakeTx)
    (st : SyncState) : Except CkbTxErr SyncState :=
  let epoch := st.current_epoch
  let original := (st.stake_smt.get_amount epoch tx.staker).getD 0
  let delta := u64Of (deltaU128 original tx.amount tx.is_increase)
  let row : HistoryRow :=
    { id := st.storage.get_id + 1,
      tx_hash := tx.tx_hash,
      tx_block := tx.block_number,
      address := tx.staker,
      amount := i64OfU64 delta,
      operation := 0,
      event := if tx.is_increase then 1 else 0,
      epoch := epoch,
      status := none,
      timestamp := tx.timestamp }
  let storage1 := st.storage.insert_history row
  match st.stake_smt.insert epoch [⟨tx.staker, tx.amount, true⟩] with
  | .error e => .error e
  | .ok smt1 =>
    match builder_update_smt chainCells epoch 10 smt1 with
    | .error e => .error e
    | .ok smt2 => .ok { st with storage := storage1, stake_smt := smt2 }

/-- **C5** — epoch rollover: handling `EpochRollover(e)` sets
`current_epoch` to `e`, invokes `new_epoch(e)` on both the stake and the
delegate SMT stores, and persists under the `current_epoch` key exactly
the 8-byte little-endian encoding of `e` (spelled out byte by byte). -/
theorem epoch_rollover_c5 (e : Nat) (st : SyncState) :
    (handle_new_epoch e st).current_epoch = e ∧
    (handle_new_epoch e st).stake_smt = SmtStore.new_epoch e st.stake_smt ∧
    (handle_new_epoch e st).delegate_smt = SmtStore.new_epoch e st.delegate_smt ∧
    (handle_new_epoch e st).kvdb.get_staker_status CURRENT_EPOCH_KEY
      = some (toLEBytes 8 e) ∧
    toLEBytes 8 e =
      [e % 256, e / 256 % 256, e / 256 ^ 2 % 256, e / 256 ^ 3 % 256,
       e / 256 ^ 4 % 256, e / 256 ^ 5 % 256, e / 256 ^ 6 % 256,
       e / 256 ^ 7 % 256] := by
  refine ⟨rfl, rfl, rfl, ?_, ?_⟩
  · exact lookupA_insertA_self st.kvdb.stakeCol CURRENT_EPOCH_KEY (toLEBytes 8 e)
  · simp only [toLEBytes, Nat.div_div_eq_div_mul]
    norm_num

/-- **C6 (counterexample)** — a stake transaction for staker `0xAA…`
(delta increase 500) processed against an empty state: the handler
completes (`Ok`), but the key-value stake column holds nothing under the
staker's key, because `handle_stake_tx` never calls
`insert_staker_status` (that function has no callers). -/
theorem stake_tx_kv_not_updated_c6_counterexample :
    (handle_stake_tx (fun _ => Cell.mk [] 0 (StakeItem.mk true 0 0))
        (StakeTx.mk [170] true 500 [1] 5 1000)
        (SyncState.mk 10 ⟨[]⟩ ⟨[]⟩ ⟨[]⟩ ⟨[], []⟩ ⟨[], []⟩)).toOption.map
      (fun st => st.kvdb.get_staker_status [170]) = some none := by
  decide

/-- **C6 (amended)** — the `StakeUpdate` handler performs no key-value
write at all: whenever `handle_stake_tx` completes, the key-value store
is unchanged (in particular the stake column family gains no entry for
the staker; the observed delta is recorded only in the history table and
the stake SMT). -/
theorem stake_tx_kv_unchanged_c6 (chainCells : H160 → Cell) (tx : StakeTx)
    (st st1 : SyncState) (h : handle_stake_tx chainCells tx st = .ok st1) :
    st1.kvdb = st.kvdb := by
  unfold handle_stake_tx at h
  cases hi : st.stake_smt.insert st.current_epoch [⟨tx.staker, tx.amount, true⟩] with
  | error e =>
    simp only [hi] at h
    cases h
  | ok smt1 =>
    simp only [hi] at h
    cases hb : builder_update_smt chainCells st.current_epoch 10 smt1 with
    | error e =>
      simp only [hb] at h
      cases h
    | ok smt2 =>
      simp only [hb] at h
      cases h
      rfl

/-- Witness for the amended C6: the concrete run of the counterexample
state, whose result state keeps the empty key-value store. -/
theorem stake_tx_kv_unchanged_c6_witness :
    handle_stake_tx (fun _ => Cell.mk [] 0 (StakeItem.mk true 0 0))
        (StakeTx.mk [170] true 0 [1] 5 1000)
        (SyncState.mk 10 ⟨[]⟩ ⟨[]⟩ ⟨[]⟩ ⟨[], []⟩ ⟨[], []⟩)
      = .ok (SyncState.mk 10 ⟨[(10, [([170], 0)]), (12, [])]⟩ ⟨[]⟩ ⟨[]⟩ ⟨[], []⟩
          ⟨[HistoryRow.mk 1 [1] 5 [170] 0 0 1 10 none 1000],
           [([170], Totals.mk 0 0 0 0 0)]⟩) ∧
    (SyncState.mk 10 ⟨[(10, [([170], 0)]), (12, [])]⟩ ⟨[]⟩ ⟨[]⟩ ⟨[], []⟩
        ⟨[HistoryRow.mk 1 [1] 5 [170] 0 0 1 10 none 1000],
         [([170], Totals.mk 0 0 0 0 0)]⟩).kvdb
      = (SyncState.mk 10 ⟨[]⟩ ⟨[]⟩ ⟨[]⟩ ⟨[], []⟩ ⟨[], []⟩).kvdb :=
  ⟨by decide,
   stake_tx_kv_unchanged_c6 (fun _ => Cell.mk [] 0 (StakeItem.mk true 0 0))
     (StakeTx.mk [170] true 0 [1] 5 1000)
     (SyncState.mk 10 ⟨[]⟩ ⟨[]⟩ ⟨[]⟩ ⟨[], []⟩ ⟨[], []⟩) _ (by decide)⟩

end Spark

